import Mathlib

/-!
Verification development for the `stt` subtitle-generation service.

The repository ships a web client (`web/src/services/api.js`,
`web/src/components/SubtitlePanel.jsx`) together with the API documentation of
its backend.  The backend core (job store and scheduler, subtitle formatter,
metrics aggregator, under `api/` and `lib/` in the container image) is not part
of the checked-in sources here, so those components are modelled from the
specification text; the client-side code is embedded directly from the source.

All timestamps and durations are rational numbers (seconds / milliseconds);
progress values are natural numbers in `[0, 100]`; text is modelled as lists
of characters.
-/

namespace Stt

/-- Job lifecycle status, as in the spec data model and observed by
`SubtitlePanel.jsx` polling (`pending`, `processing`, `completed`, `failed`). -/
inductive JobStatus where
  | pending
  | processing
  | completed
  | failed
deriving DecidableEq, Repr

/-- A snapshot of one job's externally visible state: status and progress. -/
structure JobState where
  status : JobStatus
  progress : Nat
deriving DecidableEq, Repr

/-- Modelled from the spec: backend progress callbacks are "mapped into the
band [20,80]"; a callback fraction `f ∈ [0,1]` is mapped to
`20 + ⌊60·f⌋`, clamped into the band. -/
def bandProgress (f : ℚ) : Nat :=
  20 + min 60 (⌊60 * f⌋).toNat

/-- Modelled from the spec: the sequence of job states published while the
backend is transcribing.  Each callback raises progress to at least the mapped
band value; progress never decreases within a job ("Progress values are
monotonic and never decrease within a job"). -/
def transcribeStates (p : Nat) : List ℚ → List JobState
  | [] => []
  | c :: cs =>
    ⟨.processing, max p (bandProgress c)⟩ ::
      transcribeStates (max p (bandProgress c)) cs

/-- The progress value reached after all transcription callbacks. -/
def transcribeFinal (p : Nat) : List ℚ → Nat
  | [] => p
  | c :: cs => transcribeFinal (max p (bandProgress c)) cs

/-- Modelled from the spec: the terminal phase of a job run.  On backend
success the scheduler publishes progress 85 ("formatting") and then
`completed` at 100; on failure it publishes `failed` at the last progress. -/
def terminalStates (cs : List ℚ) : Bool → List JobState
  | true => [⟨.processing, 85⟩, ⟨.completed, 100⟩]
  | false => [⟨.failed, transcribeFinal 10 cs⟩]

/-- Modelled from the spec: the full sequence of externally observable job
states of one executed job (§4.1 execution algorithm): created `pending` at
progress 0; `processing` at ~10 while loading; transcription callbacks mapped
into `[20,80]`; then the terminal phase. -/
def execTrace (cs : List ℚ) (ok : Bool) : List JobState :=
  ⟨.pending, 0⟩ :: ⟨.processing, 10⟩ ::
    (transcribeStates 10 cs ++ terminalStates cs ok)

/-- The one-directional reachability order on statuses: from `pending`
anything is reachable, from `processing` everything except `pending`, and the
terminal states `completed` and `failed` reach only themselves. -/
def statusLe : JobStatus → JobStatus → Bool
  | .pending, _ => true
  | .processing, .pending => false
  | .processing, _ => true
  | .completed, .completed => true
  | .completed, _ => false
  | .failed, .failed => true
  | .failed, _ => false

/-- Combined observation order on job states: status moves forward only and
progress does not decrease. -/
def stateLe (a b : JobState) : Prop :=
  statusLe a.status b.status = true ∧ a.progress ≤ b.progress

theorem statusLe_refl (a : JobStatus) : statusLe a a = true := by
  cases a <;> rfl

theorem statusLe_trans : ∀ a b c : JobStatus, statusLe a b = true →
    statusLe b c = true → statusLe a c = true := by
  intro a b c h₁ h₂
  cases a <;> cases b <;> cases c <;> simp_all [statusLe]

theorem stateLe_trans : Transitive stateLe := by
  intro a b c h₁ h₂
  exact ⟨statusLe_trans _ _ _ h₁.1 h₂.1, le_trans h₁.2 h₂.2⟩

instance : IsTrans JobState stateLe :=
  ⟨fun _ _ _ h₁ h₂ => stateLe_trans h₁ h₂⟩

theorem bandProgress_ge (f : ℚ) : 20 ≤ bandProgress f := by
  simp [bandProgress]

theorem bandProgress_le (f : ℚ) : bandProgress f ≤ 80 := by
  have : min 60 (60 * f).floor.toNat ≤ 60 := min_le_left _ _
  simp only [bandProgress]
  omega

theorem transcribeStates_chain (cs : List ℚ) (p : Nat) :
    List.Chain' stateLe (⟨.processing, p⟩ :: transcribeStates p cs) := by
  induction cs generalizing p with
  | nil => simp [transcribeStates]
  | cons c cs ih =>
    simp only [transcribeStates]
    exact List.Chain'.cons ⟨rfl, le_max_left _ _⟩ (ih _)

theorem transcribeStates_last (cs : List ℚ) (p : Nat) :
    (⟨.processing, p⟩ :: transcribeStates p cs).getLast (by simp) =
      ⟨.processing, transcribeFinal p cs⟩ := by
  induction cs generalizing p with
  | nil => simp [transcribeStates, transcribeFinal]
  | cons c cs ih =>
    simp only [transcribeStates, transcribeFinal]
    rw [List.getLast_cons (by simp)]
    exact ih _

theorem transcribeFinal_ge (cs : List ℚ) (p : Nat) :
    p ≤ transcribeFinal p cs := by
  induction cs generalizing p with
  | nil => simp [transcribeFinal]
  | cons c cs ih =>
    exact le_trans (le_max_left _ _) (ih _)

theorem transcribeFinal_le (cs : List ℚ) (p : Nat) (hp : p ≤ 80) :
    transcribeFinal p cs ≤ 80 := by
  induction cs generalizing p with
  | nil => simpa [transcribeFinal]
  | cons c cs ih =>
    exact ih _ (max_le hp (bandProgress_le c))

theorem transcribeStates_mem (cs : List ℚ) (p : Nat) (hp : p ≤ 80) :
    ∀ s ∈ transcribeStates p cs,
      s.status = .processing ∧ 20 ≤ s.progress ∧ s.progress ≤ 80 := by
  induction cs generalizing p with
  | nil => simp [transcribeStates]
  | cons c cs ih =>
    intro s hs
    simp only [transcribeStates, List.mem_cons] at hs
    rcases hs with rfl | hs
    · exact ⟨rfl, le_trans (bandProgress_ge c) (le_max_right _ _),
        max_le hp (bandProgress_le c)⟩
    · exact ih _ (max_le hp (bandProgress_le c)) s hs

theorem execTrace_chain (cs : List ℚ) (ok : Bool) :
    List.Chain' stateLe (execTrace cs ok) := by
  have hfin80 : transcribeFinal 10 cs ≤ 80 := transcribeFinal_le cs 10 (by omega)
  have happ : List.Chain' stateLe
      ((⟨JobStatus.processing, 10⟩ :: transcribeStates 10 cs) ++
        terminalStates cs ok) := by
    rw [List.chain'_append]
    refine ⟨transcribeStates_chain cs 10, ?_, ?_⟩
    · cases ok
      · exact List.chain'_singleton _
      · exact List.chain'_pair.mpr ⟨rfl, by show (85 : Nat) ≤ 100; omega⟩
    · intro x hx y hy
      rw [List.getLast?_eq_getLast _ (by simp), transcribeStates_last cs 10]
        at hx
      simp only [Option.mem_def, Option.some_inj] at hx
      subst hx
      cases ok
      · simp only [terminalStates, List.head?, Option.mem_def,
          Option.some_inj] at hy
        subst hy
        exact ⟨rfl, le_refl _⟩
      · simp only [terminalStates, List.head?, Option.mem_def,
          Option.some_inj] at hy
        subst hy
        refine ⟨rfl, ?_⟩
        show transcribeFinal 10 cs ≤ 85
        omega
  have happ' : List.Chain' stateLe (⟨JobStatus.processing, 10⟩ ::
      (transcribeStates 10 cs ++ terminalStates cs ok)) := by
    rw [← List.cons_append]
    exact happ
  exact List.Chain'.cons ⟨rfl, Nat.zero_le _⟩ happ'

theorem execTrace_pairwise (cs : List ℚ) (ok : Bool) :
    List.Pairwise stateLe (execTrace cs ok) :=
  List.chain'_iff_pairwise.mp (execTrace_chain cs ok)

theorem execTrace_sample {cs : List ℚ} {ok : Bool} {i j : Nat}
    (hij : i ≤ j) (hj : j < (execTrace cs ok).length) :
    stateLe ((execTrace cs ok).getD i ⟨.pending, 0⟩)
      ((execTrace cs ok).getD j ⟨.pending, 0⟩) := by
  have hi : i < (execTrace cs ok).length := lt_of_le_of_lt hij hj
  rw [List.getD_eq_getElem _ _ hi, List.getD_eq_getElem _ _ hj]
  rcases lt_or_eq_of_le hij with h | rfl
  · exact List.pairwise_iff_getElem.mp (execTrace_pairwise cs ok) i j hi hj h
  · exact ⟨statusLe_refl _, le_refl _⟩

/-- Claim C1: Job status transitions are one-directional.  Along any executed
job's published state sequence, any later observation (in particular the next
one in any consecutive pair seen by a poller) has a status reachable from the
earlier one by `pending→processing→(completed|failed)` only: a job never
returns to `pending` or `processing` after a terminal state, and never moves
from `processing` back to `pending`. -/
theorem C1_status_transitions_one_directional (cs : List ℚ) (ok : Bool)
    (i j : Nat) (hij : i ≤ j) (hj : j < (execTrace cs ok).length) :
    statusLe ((execTrace cs ok).getD i ⟨.pending, 0⟩).status
      ((execTrace cs ok).getD j ⟨.pending, 0⟩).status = true :=
  (execTrace_sample hij hj).1

/-- Witness for C1 at a concrete trace. -/
theorem C1_status_transitions_one_directional_witness :
    (1 ≤ 3 ∧ 3 < (execTrace [(1 : ℚ) / 2] true).length) ∧
      statusLe ((execTrace [(1 : ℚ) / 2] true).getD 1 ⟨.pending, 0⟩).status
        ((execTrace [(1 : ℚ) / 2] true).getD 3 ⟨.pending, 0⟩).status = true :=
  ⟨⟨by omega, by decide⟩,
    C1_status_transitions_one_directional [(1 : ℚ) / 2] true 1 3 (by omega)
      (by decide)⟩

/-- Claim C6: Progress is non-decreasing: any later observation of the same
job's trace (hence any later poll) reports a progress value at least as large
as any earlier one. -/
theorem C6_progress_monotone (cs : List ℚ) (ok : Bool)
    (i j : Nat) (hij : i ≤ j) (hj : j < (execTrace cs ok).length) :
    ((execTrace cs ok).getD i ⟨.pending, 0⟩).progress ≤
      ((execTrace cs ok).getD j ⟨.pending, 0⟩).progress :=
  (execTrace_sample hij hj).2

/-- Witness for C6 at a concrete trace. -/
theorem C6_progress_monotone_witness :
    (0 ≤ 4 ∧ 4 < (execTrace [(1 : ℚ) / 2] true).length) ∧
      ((execTrace [(1 : ℚ) / 2] true).getD 0 ⟨.pending, 0⟩).progress ≤
        ((execTrace [(1 : ℚ) / 2] true).getD 4 ⟨.pending, 0⟩).progress :=
  ⟨⟨by omega, by decide⟩,
    C6_progress_monotone [(1 : ℚ) / 2] true 0 4 (by omega) (by decide)⟩

/-- Claim C7: Phase milestones of an executed job: `processing` starts at
progress 10 (loading); all transcription states carry `processing` with
progress mapped into the band `[20,80]`; on success the trace ends with
progress 85 (formatting) followed by `completed` at 100; and in every trace a
state has status `completed` exactly when its progress is 100. -/
theorem C7_phase_milestones (cs : List ℚ) :
    execTrace cs true = ⟨.pending, 0⟩ :: ⟨.processing, 10⟩ ::
        (transcribeStates 10 cs ++
          [⟨.processing, 85⟩, ⟨.completed, 100⟩]) ∧
      (∀ s ∈ transcribeStates 10 cs,
        s.status = .processing ∧ 20 ≤ s.progress ∧ s.progress ≤ 80) ∧
      (∀ ok : Bool, ∀ s ∈ execTrace cs ok,
        (s.status = .completed ↔ s.progress = 100)) := by
  refine ⟨rfl, transcribeStates_mem cs 10 (by omega), ?_⟩
  intro ok s hs
  have hband := transcribeStates_mem cs 10 (by omega)
  have hfin80 : transcribeFinal 10 cs ≤ 80 :=
    transcribeFinal_le cs 10 (by omega)
  simp only [execTrace, List.mem_cons, List.mem_append] at hs
  rcases hs with rfl | rfl | hs | hs
  · simp
  · simp
  · obtain ⟨h1, h2, h3⟩ := hband s hs
    rw [h1]
    constructor
    · intro h; cases h
    · intro h; omega
  · cases ok
    · simp only [terminalStates, List.mem_singleton] at hs
      subst hs
      constructor
      · intro h; cases h
      · intro h
        exact absurd h (by show ¬ transcribeFinal 10 cs = 100; omega)
    · simp only [terminalStates, List.mem_cons, List.mem_singleton] at hs
      rcases hs with rfl | rfl | h
      · simp
      · simp
      · cases h

/-- Witness for C7's transcription-band clause at a concrete member. -/
theorem C7_phase_milestones_witness :
    JobState.mk .processing 50 ∈ transcribeStates 10 [(1 : ℚ) / 2] ∧
      ((JobState.mk .processing 50).status = .processing ∧
        20 ≤ (JobState.mk .processing 50).progress ∧
        (JobState.mk .processing 50).progress ≤ 80) :=
  ⟨by norm_num [transcribeStates, bandProgress]; decide,
    (C7_phase_milestones [(1 : ℚ) / 2]).2.1 (JobState.mk .processing 50)
      (by norm_num [transcribeStates, bandProgress]; decide)⟩

/-- Result of one status poll as seen by the client: a response carrying the
job status, or a thrown request error. -/
inductive PollResult where
  | ok (status : JobStatus) (progress : Nat)
  | threw
deriving DecidableEq, Repr

/-- From `SubtitlePanel.jsx` `startPolling`: the interval callback clears the
interval when the response status is `completed` or `failed`, or when the
request throws (the `catch` branch). -/
def pollStops : PollResult → Bool
  | .ok .completed _ => true
  | .ok .failed _ => true
  | .threw => true
  | _ => false

/-- From `SubtitlePanel.jsx` `startPolling`: whether the polling interval
registered by `startPolling` is still active when tick `n` fires.  It is
active at tick 0 (`setInterval`) and stays active after a tick exactly when
that tick's result did not clear it.  A status request for the job is issued
at tick `n` iff the interval is still active then. -/
def pollActive (oracle : Nat → PollResult) : Nat → Bool
  | 0 => true
  | n + 1 => pollActive oracle n && !pollStops (oracle n)

/-- Claim C10: Once a poll observes `completed` or `failed`, or throws, the
client clears its polling interval: no later tick of this polling loop issues
a status request. -/
theorem C10_no_request_after_terminal (oracle : Nat → PollResult) (k : Nat)
    (hk : pollStops (oracle k) = true) :
    ∀ n, k < n → pollActive oracle n = false := by
  intro n hn
  induction n with
  | zero => omega
  | succ n ih =>
    simp only [pollActive]
    rcases Nat.lt_succ_iff_lt_or_eq.mp hn with h | h
    · rw [ih h]
      rfl
    · subst h
      rw [hk]
      simp

/-- Witness for C10: a poll that returns `completed` at tick 0 stops tick 1. -/
theorem C10_no_request_after_terminal_witness :
    pollStops ((fun _ => PollResult.ok .completed 100) 0) = true ∧ 0 < 1 ∧
      pollActive (fun _ => PollResult.ok .completed 100) 1 = false :=
  ⟨by decide, by omega,
    C10_no_request_after_terminal (fun _ => PollResult.ok .completed 100) 0
      (by decide) 1 (by omega)⟩

/-- The externally visible fields of a freshly created job record. -/
structure JobRecord where
  status : JobStatus
  progress : Nat
deriving DecidableEq, Repr

/-- The submit response shape received by `submitSubtitleJob` in `api.js`:
`response.data // \x7b job_id, status, message \x7d`. -/
structure SubmitResponse where
  job_id : String
  status : JobStatus
  message : String
deriving DecidableEq, Repr

/-- The job store's shared state: the id-to-record map plus an id counter. -/
structure JobStore where
  jobs : List (String × JobRecord)
  nextId : Nat
deriving DecidableEq, Repr

/-- Fresh job identifier, collision-free for process lifetime. -/
def freshId (n : Nat) : String := "job-" ++ toString n

/-- Modelled from the spec: `Submit(audio, params) → job_id` creates a job
record with status=pending, progress=0, registers it in the store, and
returns immediately with `\x7b job_id, status, message \x7d`; execution
against the backend begins asynchronously only after the response is
returned, so `submit` itself performs no backend work. -/
def submit (st : JobStore) : JobStore × SubmitResponse :=
  let id := freshId st.nextId
  (⟨(id, ⟨.pending, 0⟩) :: st.jobs, st.nextId + 1⟩,
    ⟨id, .pending, "Job submitted"⟩)

/-- Modelled from the spec: `GetStatus(job_id) → snapshot | NotFound`
(`none` models `NotFound`). -/
def getStatus (st : JobStore) (id : String) : Option JobRecord :=
  st.jobs.lookup id

/-- Claim C5: A submit response carries the `job_id`, `status` and `message`
fields, and the returned id is immediately resolvable: `GetStatus` on it
right after `submit` returns the pending snapshot, never `NotFound`. -/
theorem C5_submit_immediately_resolvable (st : JobStore) :
    getStatus (submit st).1 (submit st).2.job_id = some ⟨.pending, 0⟩ ∧
      (submit st).2.job_id = freshId st.nextId ∧
      (submit st).2.status = .pending ∧
      (submit st).2.message = "Job submitted" := by
  refine ⟨?_, rfl, rfl, rfl⟩
  simp [getStatus, submit, List.lookup]

/-- JavaScript values that can appear as option fields in
`submitSubtitleJob`'s `options` object. -/
inductive JsValue where
  | null
  | undef
  | str (s : String)
  | bool (b : Bool)
  | num (q : ℚ)
deriving DecidableEq, Repr

/-- From `api.js` `submitSubtitleJob`: the guard
`options[key] !== null && options[key] !== undefined && options[key] !== ''`.
JavaScript strict (in)equality never equates values of different types, so
`false !== ''` and `0 !== ''` both hold. -/
def appendedToForm (v : JsValue) : Bool :=
  !(v == JsValue.null) && !(v == JsValue.undef) && !(v == JsValue.str "")

/-- From `api.js` `submitSubtitleJob`: the multipart form starts with the
`audio_file` field, then each option key in order is appended exactly when
its value passes the guard. -/
def submitFormData (file : JsValue) (opts : List (String × JsValue)) :
    List (String × JsValue) :=
  opts.foldl (fun fd kv => if appendedToForm kv.2 then fd ++ [kv] else fd)
    [("audio_file", file)]

theorem foldl_append_filter {α : Type} (p : α → Bool) (l : List α) :
    ∀ acc : List α,
      l.foldl (fun fd x => if p x then fd ++ [x] else fd) acc =
        acc ++ l.filter p := by
  induction l with
  | nil => simp
  | cons x l ih =>
    intro acc
    by_cases h : p x = true
    · simp [List.filter_cons, h, ih]
    · simp only [Bool.not_eq_true] at h
      simp [List.filter_cons, h, ih]

/-- Claim C9: `submitSubtitleJob` appends to the multipart form exactly the
option keys whose value is neither `null`, `undefined` nor the empty string;
boolean `false` and numeric `0` pass the guard and are transmitted, while
empty-string fields are omitted. -/
theorem C9_form_fields_filtered (file : JsValue)
    (opts : List (String × JsValue)) :
    submitFormData file opts =
        ("audio_file", file) ::
          opts.filter (fun kv => appendedToForm kv.2) ∧
      (∀ v : JsValue, appendedToForm v = true ↔
        (v ≠ .null ∧ v ≠ .undef ∧ v ≠ .str "")) ∧
      appendedToForm (.bool false) = true ∧
      appendedToForm (.num 0) = true ∧
      appendedToForm (.str "") = false := by
  refine ⟨?_, ?_, by decide, by decide, by decide⟩
  · rw [submitFormData, foldl_append_filter]
    rfl
  · intro v
    simp [appendedToForm, and_assoc]

/-- Modelled from the spec: the metrics aggregator's latency state, a bounded
rolling sample window with oldest-sample eviction. -/
structure MetricsState where
  window : List ℚ
  capacity : Nat
deriving Repr

/-- Modelled from the spec: `RecordCompletion(duration, succeeded)` appends
the duration to the rolling window, evicting oldest samples beyond the fixed
capacity. -/
def recordCompletion (m : MetricsState) (d : ℚ) : MetricsState :=
  let w := m.window ++ [d]
  ⟨w.drop (w.length - m.capacity), m.capacity⟩

/-- Insertion into a sorted list of samples. -/
def insertSorted (x : ℚ) : List ℚ → List ℚ
  | [] => [x]
  | y :: ys => if x ≤ y then x :: y :: ys else y :: insertSorted x ys

/-- Sorting of the sample window by insertion. -/
def sortWindow (l : List ℚ) : List ℚ := l.foldr insertSorted []

/-- Modelled from the spec: percentiles are computed on read by sorting the
current window and indexing at `ceil(p * n) - 1` where `n` is the window
size. -/
def percentileOf (p : ℚ) (w : List ℚ) : ℚ :=
  (sortWindow w).getD ((⌈p * w.length⌉).toNat - 1) 0

/-- The latency-percentile fields of a metrics snapshot. -/
structure MetricsSnapshot where
  p50 : ℚ
  p95 : ℚ
  p99 : ℚ
deriving DecidableEq, Repr

/-- Modelled from the spec: `Snapshot()` computes `p50/p95/p99` from the
current rolling window. -/
def metricsSnapshot (m : MetricsState) : MetricsSnapshot :=
  ⟨percentileOf (1 / 2) m.window, percentileOf (19 / 20) m.window,
    percentileOf (99 / 100) m.window⟩

/-- The exact order statistic named by the claim: sort the recorded samples
and take the element at index `ceil(p * n) - 1`. -/
def orderStatSpec (p : ℚ) (ds : List ℚ) : ℚ :=
  (sortWindow ds).getD ((⌈p * ds.length⌉).toNat - 1) 0

theorem recordCompletion_window_foldl (cap : Nat) (ds : List ℚ) :
    ∀ acc : List ℚ, acc.length + ds.length ≤ cap →
      (ds.foldl recordCompletion ⟨acc, cap⟩).window = acc ++ ds ∧
        (ds.foldl recordCompletion ⟨acc, cap⟩).capacity = cap := by
  induction ds with
  | nil => intro acc h; simp
  | cons d ds ih =>
    intro acc h
    have hstep : recordCompletion ⟨acc, cap⟩ d = ⟨acc ++ [d], cap⟩ := by
      simp only [recordCompletion]
      have hz : (acc ++ [d]).length - cap = 0 := by
        simp only [List.length_append, List.length_singleton]
        simp only [List.length_cons] at h
        omega
      rw [hz, List.drop_zero]
    simp only [List.foldl_cons, hstep]
    have := ih (acc ++ [d]) (by
      simp only [List.length_append, List.length_singleton]
      simp only [List.length_cons] at h
      omega)
    simpa [List.append_assoc] using this

/-- Claim C4: After recording `N` completion durations that fit in the rolling
window, the window holds exactly those durations and the snapshot's `p50`,
`p95` and `p99` equal the exact order statistics obtained by sorting the
window and indexing at `ceil(p * n) - 1`. -/
theorem C4_percentiles_exact (ds : List ℚ) (cap : Nat)
    (hfit : ds.length ≤ cap) :
    (ds.foldl recordCompletion ⟨[], cap⟩).window = ds ∧
      metricsSnapshot (ds.foldl recordCompletion ⟨[], cap⟩) =
        ⟨orderStatSpec (1 / 2) ds, orderStatSpec (19 / 20) ds,
          orderStatSpec (99 / 100) ds⟩ := by
  have hw := recordCompletion_window_foldl cap ds [] (by simpa using hfit)
  have hwin : (ds.foldl recordCompletion ⟨[], cap⟩).window = ds := by
    simpa using hw.1
  refine ⟨hwin, ?_⟩
  simp [metricsSnapshot, hwin, percentileOf, orderStatSpec]

/-- Witness for C4 on the concrete durations `[3, 1, 2]` with capacity 5. -/
theorem C4_percentiles_exact_witness :
    ([(3 : ℚ), 1, 2].length ≤ 5) ∧
      (([(3 : ℚ), 1, 2].foldl recordCompletion ⟨[], 5⟩).window =
          [(3 : ℚ), 1, 2] ∧
        metricsSnapshot ([(3 : ℚ), 1, 2].foldl recordCompletion ⟨[], 5⟩) =
          ⟨orderStatSpec (1 / 2) [(3 : ℚ), 1, 2],
            orderStatSpec (19 / 20) [(3 : ℚ), 1, 2],
            orderStatSpec (99 / 100) [(3 : ℚ), 1, 2]⟩) :=
  ⟨by simp, C4_percentiles_exact [(3 : ℚ), 1, 2] 5 (by simp)⟩

/-- A backend word with its own timestamps (`Word\x7btext, start, end\x7d`;
`end` is rendered as `stop`). -/
structure Word where
  text : List Char
  start : ℚ
  stop : ℚ
deriving DecidableEq, Repr

/-- A backend segment: `start`/`end` in seconds, recognized text, and
optionally word-level timestamps. -/
structure Segment where
  start : ℚ
  stop : ℚ
  text : List Char
  words : List Word
deriving DecidableEq, Repr

/-- Formatter options: `max_line_width` (10–100), `max_line_count` (1–3),
`word_level`, `split_by_punctuation`, `adjust_timing`. -/
structure FormatOptions where
  max_line_width : Nat
  max_line_count : Nat
  word_level : Bool
  split_by_punctuation : Bool
  adjust_timing : Bool
deriving DecidableEq, Repr

/-- One output subtitle entry: 1-based index, time interval, text lines. -/
structure SubtitleEntry where
  index : Nat
  start : ℚ
  stop : ℚ
  lines : List (List Char)
deriving DecidableEq, Repr

/-- Modelled from the spec: designated sentence-ending and clause-ending
punctuation marks (the UI description lists ，。？！; western equivalents
included). -/
def isPunct (c : Char) : Bool :=
  c == '.' || c == '!' || c == '?' || c == ',' || c == ';' ||
    c == '，' || c == '。' || c == '？' || c == '！'

/-- Splits text into whitespace-separated words (the word boundaries at which
greedy wrapping may break). -/
def splitWordsAux : List Char → List Char → List (List Char)
  | [], cur => if cur.isEmpty then [] else [cur.reverse]
  | c :: rest, cur =>
    if c == ' ' then
      if cur.isEmpty then splitWordsAux rest []
      else cur.reverse :: splitWordsAux rest []
    else splitWordsAux rest (c :: cur)

def splitWords (t : List Char) : List (List Char) := splitWordsAux t []

/-- Modelled from the spec: greedy wrap, accumulating words into the current
line while it stays within `width` (one separating space per word), else
flushing the line; a single word longer than `width` stays unsplit. -/
def greedyWrapAux (width : Nat) : List Char → List (List Char) → List (List Char)
  | cur, [] => [cur]
  | cur, w :: ws =>
    if cur.length + 1 + w.length ≤ width then
      greedyWrapAux width (cur ++ ' ' :: w) ws
    else
      cur :: greedyWrapAux width w ws

def greedyWrap (width : Nat) (t : List Char) : List (List Char) :=
  match splitWords t with
  | [] => []
  | w :: ws => greedyWrapAux width w ws

/-- Raw punctuation split: a piece ends right after each designated mark. -/
def splitPunctAux : List Char → List Char → List (List Char)
  | [], cur => if cur.isEmpty then [] else [cur.reverse]
  | c :: rest, cur =>
    if isPunct c then (c :: cur).reverse :: splitPunctAux rest []
    else splitPunctAux rest (c :: cur)

/-- Removes leading and trailing spaces. -/
def trimSpaces (t : List Char) : List Char :=
  ((t.dropWhile (fun c => c == ' ')).reverse.dropWhile
    (fun c => c == ' ')).reverse

/-- Modelled from the spec: split segment text at designated punctuation
boundaries into sub-spans; pieces are trimmed and empty pieces dropped. -/
def splitPunct (t : List Char) : List (List Char) :=
  ((splitPunctAux t []).map trimSpaces).filter (fun p => !p.isEmpty)

/-- Total measure of a list of items under a length function. -/
def totalBy {α : Type} (len : α → Nat) (xs : List α) : Nat :=
  (xs.map len).sum

/-- Modelled from the spec: proportional time distribution.  With `acc`
characters already allotted out of `L`, item `x` receives the interval from
`s + d·acc/L` to `s + d·(acc + len x)/L`: contiguous, in order, each item
getting the fraction of the duration `d` that its length is of `L`. -/
def distributeAux {α : Type} (len : α → Nat) (s d : ℚ) (L : Nat) :
    Nat → List α → List (α × ℚ × ℚ)
  | _, [] => []
  | acc, x :: xs =>
    (x, s + d * (acc : ℚ) / (L : ℚ),
      s + d * ((acc + len x : Nat) : ℚ) / (L : ℚ)) ::
      distributeAux len s d L (acc + len x) xs

def distribute {α : Type} (len : α → Nat) (s e : ℚ) (xs : List α) :
    List (α × ℚ × ℚ) :=
  distributeAux len s (e - s) (totalBy len xs) 0 xs

/-- `coversExactly s ivs e` holds when the intervals `ivs`, concatenated in
order, reconstruct exactly the interval from `s` to `e`: each interval starts
where the previous one stopped, beginning at `s` and ending at `e`. -/
def coversExactly : ℚ → List (ℚ × ℚ) → ℚ → Bool
  | s, [], e => decide (s = e)
  | s, iv :: ivs, e => decide (iv.1 = s) && coversExactly iv.2 ivs e

/-- A timed sub-span of a segment (step 2 of the formatter algorithm). -/
structure Span where
  text : List Char
  start : ℚ
  stop : ℚ
deriving DecidableEq, Repr

/-- Modelled from the spec: step 2.  With `split_by_punctuation`, the segment
text is split at punctuation boundaries and the segment's interval is
distributed proportionally to each sub-span's character length; otherwise the
whole segment is a single span.  A text with no split pieces stays one span. -/
def segmentSpans (opts : FormatOptions) (g : Segment) : List Span :=
  if opts.split_by_punctuation then
    match splitPunct g.text with
    | [] => [⟨g.text, g.start, g.stop⟩]
    | t :: ts =>
      (distribute List.length g.start g.stop (t :: ts)).map
        (fun p => ⟨p.1, p.2.1, p.2.2⟩)
  else
    [⟨g.text, g.start, g.stop⟩]

/-- Character count of a group of lines. -/
def chunkLen (ch : List (List Char)) : Nat := (ch.map List.length).sum

/-- Groups wrapped lines into consecutive blocks of at most `cnt` lines
(step 3: a span whose greedy wrap exceeds `max_line_count` lines is split
into multiple consecutive entries). -/
def chunkLines (cnt : Nat) : List (List Char) → List (List (List Char))
  | [] => []
  | l :: ls => (l :: ls.take (cnt - 1)) :: chunkLines cnt (ls.drop (cnt - 1))
termination_by ls => ls.length
decreasing_by
  simp only [List.length_drop, List.length_cons]
  omega

/-- Modelled from the spec: step 3.  The span's text is greedily wrapped,
the lines are grouped into entries of at most `max_line_count` lines, and the
span's interval is distributed over the entries proportionally to character
count.  A span that wraps to no lines yields one entry with no lines. -/
def spanEntries (opts : FormatOptions) (sp : Span) : List SubtitleEntry :=
  match chunkLines opts.max_line_count
      (greedyWrap opts.max_line_width sp.text) with
  | [] => [⟨0, sp.start, sp.stop, []⟩]
  | ch :: chs =>
    (distribute chunkLen sp.start sp.stop (ch :: chs)).map
      (fun p => ⟨0, p.2.1, p.2.2, p.1⟩)

/-- Modelled from the spec: step 1 (word_level: one entry per word with the
word's own timestamps) or steps 2–3 per segment. -/
def segmentEntries (opts : FormatOptions) (g : Segment) : List SubtitleEntry :=
  if opts.word_level then
    g.words.map (fun w => ⟨0, w.start, w.stop, [w.text]⟩)
  else
    ((segmentSpans opts g).map (spanEntries opts)).flatten

/-- Modelled from the spec: a short monotonic bounded reading-onset delay as
a function of character count (1/100 s per character, capped at 20). -/
def readingDelay (chars : Nat) : ℚ := ((min chars 20 : Nat) : ℚ) / 100

def entryChars (e : SubtitleEntry) : Nat := chunkLen e.lines

/-- Modelled from the spec: step 4.  Each entry's start is advanced by the
reading-onset delay, clamped so it never precedes the previous entry's end
nor exceeds the entry's own original end. -/
def adjustEntriesFrom : ℚ → List SubtitleEntry → List SubtitleEntry
  | _, [] => []
  | prevEnd, e :: es =>
    ⟨e.index,
      min e.stop (max prevEnd (e.start + readingDelay (entryChars e))),
      e.stop, e.lines⟩ :: adjustEntriesFrom e.stop es

def adjustEntries (es : List SubtitleEntry) : List SubtitleEntry :=
  match es with
  | [] => []
  | e :: _ => adjustEntriesFrom e.start es

/-- Step 5: sequential 1-based indices in time order. -/
def reindexFrom : Nat → List SubtitleEntry → List SubtitleEntry
  | _, [] => []
  | i, e :: es => ⟨i, e.start, e.stop, e.lines⟩ :: reindexFrom (i + 1) es

/-- Modelled from the spec: the subtitle formatter.  Malformed input (an
empty segment list, or any segment with end < start) yields an empty entry
sequence rather than raising; otherwise segments are formatted in order,
timing is optionally adjusted, and entries are indexed from 1. -/
def formatSubtitles (segs : List Segment) (opts : FormatOptions) :
    List SubtitleEntry :=
  if segs.isEmpty || segs.any (fun g => decide (g.stop < g.start)) then []
  else
    reindexFrom 1
      (if opts.adjust_timing then
        adjustEntries ((segs.map (segmentEntries opts)).flatten)
      else
        (segs.map (segmentEntries opts)).flatten)

/-- The time interval of an entry. -/
def entryInterval (e : SubtitleEntry) : ℚ × ℚ := (e.start, e.stop)

/-- The time interval of a span. -/
def spanInterval (sp : Span) : ℚ × ℚ := (sp.start, sp.stop)

/-- A well-formed wrapped line: non-empty, and either within the width limit
or a single unsplittable word (no space to break at). -/
def lineOk (width : Nat) (l : List Char) : Prop :=
  l ≠ [] ∧ (l.length ≤ width ∨ ' ' ∉ l)

theorem splitWordsAux_mem (t : List Char) :
    ∀ cur, ' ' ∉ cur → ∀ w ∈ splitWordsAux t cur, w ≠ [] ∧ ' ' ∉ w := by
  induction t with
  | nil =>
    intro cur hcur w hw
    simp only [splitWordsAux] at hw
    by_cases h : cur.isEmpty
    · simp [h] at hw
    · rw [if_neg h] at hw
      simp only [List.mem_singleton] at hw
      subst hw
      refine ⟨?_, ?_⟩
      · simp only [ne_eq, List.reverse_eq_nil_iff]
        simpa [List.isEmpty_iff] using h
      · simpa [List.mem_reverse] using hcur
  | cons c rest ih =>
    intro cur hcur w hw
    simp only [splitWordsAux] at hw
    by_cases hc : c == ' '
    · rw [if_pos hc] at hw
      by_cases h : cur.isEmpty
      · rw [if_pos h] at hw
        exact ih [] (by simp) w hw
      · rw [if_neg h] at hw
        simp only [List.mem_cons] at hw
        rcases hw with rfl | hw
        · refine ⟨?_, ?_⟩
          · simp only [ne_eq, List.reverse_eq_nil_iff]
            simpa [List.isEmpty_iff] using h
          · simpa [List.mem_reverse] using hcur
        · exact ih [] (by simp) w hw
    · rw [if_neg hc] at hw
      refine ih (c :: cur) ?_ w hw
      simp only [List.mem_cons, not_or]
      refine ⟨?_, hcur⟩
      intro h
      exact hc (by simp [h.symm])

theorem splitWords_mem (t : List Char) :
    ∀ w ∈ splitWords t, w ≠ [] ∧ ' ' ∉ w :=
  splitWordsAux_mem t [] (by simp)

theorem greedyWrapAux_mem (width : Nat) (ws : List (List Char)) :
    ∀ cur, lineOk width cur → (∀ w ∈ ws, w ≠ [] ∧ ' ' ∉ w) →
      ∀ l ∈ greedyWrapAux width cur ws, lineOk width l := by
  induction ws with
  | nil =>
    intro cur hcur _ l hl
    simp only [greedyWrapAux, List.mem_singleton] at hl
    subst hl
    exact hcur
  | cons w ws ih =>
    intro cur hcur hws l hl
    simp only [greedyWrapAux] at hl
    by_cases h : cur.length + 1 + w.length ≤ width
    · rw [if_pos h] at hl
      refine ih (cur ++ ' ' :: w) ⟨?_, Or.inl ?_⟩
        (fun w hw => hws w (List.mem_cons_of_mem _ hw)) l hl
      · simp [hcur.1]
      · simp only [List.length_append, List.length_cons]
        omega
    · rw [if_neg h] at hl
      simp only [List.mem_cons] at hl
      rcases hl with rfl | hl
      · exact hcur
      · have hw := hws w (List.mem_cons_self _ _)
        exact ih w ⟨hw.1, Or.inr hw.2⟩
          (fun w hw => hws w (List.mem_cons_of_mem _ hw)) l hl

theorem greedyWrap_mem (width : Nat) (t : List Char) :
    ∀ l ∈ greedyWrap width t, lineOk width l := by
  intro l hl
  unfold greedyWrap at hl
  rcases hsw : splitWords t with _ | ⟨w, ws⟩
  · rw [hsw] at hl
    simp at hl
  · rw [hsw] at hl
    have hmem := splitWords_mem t
    rw [hsw] at hmem
    have hw := hmem w (List.mem_cons_self _ _)
    exact greedyWrapAux_mem width ws w ⟨hw.1, Or.inr hw.2⟩
      (fun w hw => hmem w (List.mem_cons_of_mem _ hw)) l hl

theorem splitPunct_mem_ne_nil (t : List Char) :
    ∀ p ∈ splitPunct t, p ≠ [] := by
  intro p hp
  simp only [splitPunct, List.mem_filter] at hp
  intro h
  subst h
  simp at hp

theorem chunkLines_mem (cnt : Nat) (ls : List (List Char)) :
    ∀ ch ∈ chunkLines cnt ls,
      ch ≠ [] ∧ ch.length ≤ 1 + (cnt - 1) ∧ ∀ l ∈ ch, l ∈ ls := by
  induction ls using chunkLines.induct cnt with
  | case1 => simp [chunkLines]
  | case2 l ls ih =>
    intro ch hch
    simp only [chunkLines, List.mem_cons] at hch
    rcases hch with rfl | hch
    · refine ⟨by simp, ?_, ?_⟩
      · simp only [List.length_cons]
        have := List.length_take_le (cnt - 1) ls
        omega
      · intro x hx
        simp only [List.mem_cons] at hx
        rcases hx with rfl | hx
        · exact List.mem_cons_self _ _
        · exact List.mem_cons_of_mem _ (List.take_subset _ _ hx)
    · obtain ⟨h1, h2, h3⟩ := ih ch hch
      exact ⟨h1, h2,
        fun x hx => List.mem_cons_of_mem _ (List.drop_subset _ _ (h3 x hx))⟩

theorem chunkLen_pos {ch : List (List Char)} (h : ch ≠ [])
    (h2 : ∀ l ∈ ch, l ≠ []) : chunkLen ch ≠ 0 := by
  cases ch with
  | nil => exact absurd rfl h
  | cons l ls =>
    have : l ≠ [] := h2 l (List.mem_cons_self _ _)
    have : 0 < l.length := List.length_pos.mpr this
    simp only [chunkLen, List.map_cons, List.sum_cons]
    omega

theorem coversExactly_append {ivs₁ : List (ℚ × ℚ)} :
    ∀ {s m e : ℚ} {ivs₂ : List (ℚ × ℚ)},
      coversExactly s ivs₁ m = true → coversExactly m ivs₂ e = true →
        coversExactly s (ivs₁ ++ ivs₂) e = true := by
  induction ivs₁ with
  | nil =>
    intro s m e ivs₂ h₁ h₂
    simp only [coversExactly, decide_eq_true_eq] at h₁
    subst h₁
    simpa using h₂
  | cons iv ivs ih =>
    intro s m e ivs₂ h₁ h₂
    simp only [coversExactly, Bool.and_eq_true] at h₁ ⊢
    exact ⟨h₁.1, ih h₁.2 h₂⟩

theorem distributeAux_covers {α : Type} (len : α → Nat) (s d : ℚ) (L : Nat) :
    ∀ (xs : List α) (acc : Nat),
      coversExactly (s + d * (acc : ℚ) / (L : ℚ))
        ((distributeAux len s d L acc xs).map (fun p => (p.2.1, p.2.2)))
        (s + d * ((acc + totalBy len xs : Nat) : ℚ) / (L : ℚ)) = true := by
  intro xs
  induction xs with
  | nil =>
    intro acc
    simp [distributeAux, coversExactly, totalBy]
  | cons x xs ih =>
    intro acc
    simp only [distributeAux, List.map_cons, coversExactly, Bool.and_eq_true,
      decide_eq_true_eq]
    refine ⟨trivial, ?_⟩
    have hT : acc + totalBy len (x :: xs) = (acc + len x) + totalBy len xs := by
      simp only [totalBy, List.map_cons, List.sum_cons]
      omega
    rw [hT]
    exact ih (acc + len x)

theorem distribute_covers {α : Type} (len : α → Nat) (s e : ℚ) (xs : List α)
    (h : totalBy len xs ≠ 0) :
    coversExactly s ((distribute len s e xs).map (fun p => (p.2.1, p.2.2)))
      e = true := by
  have hc := distributeAux_covers len s (e - s) (totalBy len xs) xs 0
  have h₁ : s + (e - s) * ((0 : Nat) : ℚ) / ((totalBy len xs : Nat) : ℚ) =
      s := by
    simp
  have h₂ : s + (e - s) * ((0 + totalBy len xs : Nat) : ℚ) /
      ((totalBy len xs : Nat) : ℚ) = e := by
    have hL : ((totalBy len xs : Nat) : ℚ) ≠ 0 := Nat.cast_ne_zero.mpr h
    field_simp
  rw [h₁, h₂] at hc
  exact hc

theorem distributeAux_width {α : Type} (len : α → Nat) (s d : ℚ) (L : Nat) :
    ∀ (xs : List α) (acc : Nat), ∀ p ∈ distributeAux len s d L acc xs,
      p.2.2 - p.2.1 = d * ((len p.1 : Nat) : ℚ) / ((L : Nat) : ℚ) := by
  intro xs
  induction xs with
  | nil => simp [distributeAux]
  | cons x xs ih =>
    intro acc p hp
    simp only [distributeAux, List.mem_cons] at hp
    rcases hp with rfl | hp
    · push_cast
      ring
    · exact ih _ p hp

theorem distributeAux_fst_mem {α : Type} (len : α → Nat) (s d : ℚ) (L : Nat) :
    ∀ (xs : List α) (acc : Nat), ∀ p ∈ distributeAux len s d L acc xs,
      p.1 ∈ xs := by
  intro xs
  induction xs with
  | nil => simp [distributeAux]
  | cons x xs ih =>
    intro acc p hp
    simp only [distributeAux, List.mem_cons] at hp
    rcases hp with rfl | hp
    · exact List.mem_cons_self _ _
    · exact List.mem_cons_of_mem _ (ih _ p hp)

theorem spanEntries_covers (opts : FormatOptions) (sp : Span) :
    coversExactly sp.start ((spanEntries opts sp).map entryInterval)
      sp.stop = true := by
  unfold spanEntries
  rcases hch : chunkLines opts.max_line_count
      (greedyWrap opts.max_line_width sp.text) with _ | ⟨ch, chs⟩
  · simp [coversExactly, entryInterval]
  · have hmem := chunkLines_mem opts.max_line_count
      (greedyWrap opts.max_line_width sp.text)
    rw [hch] at hmem
    have hne : totalBy chunkLen (ch :: chs) ≠ 0 := by
      have hc := hmem ch (List.mem_cons_self _ _)
      have hpos : chunkLen ch ≠ 0 :=
        chunkLen_pos hc.1
          (fun l hl => (greedyWrap_mem _ _ l (hc.2.2 l hl)).1)
      simp only [totalBy, List.map_cons, List.sum_cons]
      omega
    have hcov := distribute_covers chunkLen sp.start sp.stop (ch :: chs) hne
    rw [List.map_map]
    exact hcov

theorem segmentSpans_covers (opts : FormatOptions) (g : Segment) :
    coversExactly g.start ((segmentSpans opts g).map spanInterval)
      g.stop = true := by
  unfold segmentSpans
  by_cases hsp : opts.split_by_punctuation
  · rw [if_pos hsp]
    rcases hts : splitPunct g.text with _ | ⟨t, ts⟩
    · simp [coversExactly, spanInterval]
    · have hmem := splitPunct_mem_ne_nil g.text
      rw [hts] at hmem
      have hne : totalBy List.length (t :: ts) ≠ 0 := by
        have ht : t ≠ [] := hmem t (List.mem_cons_self _ _)
        have : 0 < t.length := List.length_pos.mpr ht
        simp only [totalBy, List.map_cons, List.sum_cons]
        omega
      have hcov := distribute_covers List.length g.start g.stop (t :: ts) hne
      rw [List.map_map]
      exact hcov
  · rw [if_neg hsp]
    simp [coversExactly, spanInterval]

theorem flatten_covers (f : Span → List SubtitleEntry) :
    ∀ (sps : List Span) (s e : ℚ),
      coversExactly s (sps.map spanInterval) e = true →
      (∀ sp ∈ sps,
        coversExactly sp.start ((f sp).map entryInterval) sp.stop = true) →
      coversExactly s (((sps.map f).flatten).map entryInterval) e = true := by
  intro sps
  induction sps with
  | nil =>
    intro s e h _
    simpa using h
  | cons sp sps ih =>
    intro s e h hf
    simp only [List.map_cons, coversExactly, Bool.and_eq_true,
      decide_eq_true_eq, spanInterval] at h
    obtain ⟨hstart, hrest⟩ := h
    simp only [List.map_cons, List.flatten_cons, List.map_append]
    refine coversExactly_append ?_ (ih sp.stop e hrest
      (fun sp hm => hf sp (List.mem_cons_of_mem _ hm)))
    rw [← hstart]
    exact hf sp (List.mem_cons_self _ _)

theorem segmentEntries_covers (opts : FormatOptions) (g : Segment)
    (hwl : opts.word_level = false) :
    coversExactly g.start ((segmentEntries opts g).map entryInterval)
      g.stop = true := by
  unfold segmentEntries
  rw [hwl]
  simp only [Bool.false_eq_true, if_false]
  exact flatten_covers (spanEntries opts) (segmentSpans opts g) g.start g.stop
    (segmentSpans_covers opts g) (fun sp _ => spanEntries_covers opts sp)

theorem reindexFrom_map_interval :
    ∀ (i : Nat) (es : List SubtitleEntry),
      (reindexFrom i es).map entryInterval = es.map entryInterval := by
  intro i es
  induction es generalizing i with
  | nil => rfl
  | cons e es ih => simp [reindexFrom, entryInterval, ih]

theorem mem_reindexFrom_lines {e : SubtitleEntry} :
    ∀ {i : Nat} {es : List SubtitleEntry}, e ∈ reindexFrom i es →
      ∃ e' ∈ es, e'.lines = e.lines := by
  intro i es
  induction es generalizing i with
  | nil => intro h; simp [reindexFrom] at h
  | cons e' es ih =>
    intro h
    simp only [reindexFrom, List.mem_cons] at h
    rcases h with rfl | h
    · exact ⟨e', List.mem_cons_self _ _, rfl⟩
    · obtain ⟨e'', hm, hl⟩ := ih h
      exact ⟨e'', List.mem_cons_of_mem _ hm, hl⟩

theorem mem_adjustEntriesFrom_lines {e : SubtitleEntry} :
    ∀ {q : ℚ} {es : List SubtitleEntry}, e ∈ adjustEntriesFrom q es →
      ∃ e' ∈ es, e'.lines = e.lines := by
  intro q es
  induction es generalizing q with
  | nil => intro h; simp [adjustEntriesFrom] at h
  | cons e' es ih =>
    intro h
    simp only [adjustEntriesFrom, List.mem_cons] at h
    rcases h with rfl | h
    · exact ⟨e', List.mem_cons_self _ _, rfl⟩
    · obtain ⟨e'', hm, hl⟩ := ih h
      exact ⟨e'', List.mem_cons_of_mem _ hm, hl⟩

theorem mem_adjustEntries_lines {e : SubtitleEntry}
    {es : List SubtitleEntry} (h : e ∈ adjustEntries es) :
    ∃ e' ∈ es, e'.lines = e.lines := by
  cases es with
  | nil => simp [adjustEntries] at h
  | cons e' es => exact mem_adjustEntriesFrom_lines h

theorem formatSubtitles_eq_of_wf (segs : List Segment) (opts : FormatOptions)
    (hadj : opts.adjust_timing = false)
    (hwf : ∀ g ∈ segs, g.start ≤ g.stop) :
    formatSubtitles segs opts =
      reindexFrom 1 ((segs.map (segmentEntries opts)).flatten) := by
  unfold formatSubtitles
  rw [hadj]
  simp only [Bool.false_eq_true, if_false]
  cases segs with
  | nil => simp [reindexFrom]
  | cons g gs =>
    have hany : (g :: gs).any (fun g => decide (g.stop < g.start)) = false := by
      rw [List.any_eq_false]
      intro x hx
      simpa using not_lt.mpr (hwf x hx)
    simp [hany]

/-- Claim C2, amended:  For well-formed segments (`end ≥ start`), options with
`adjust_timing = false` and `word_level = false`: the formatter's entry
intervals are, in order, the per-segment entry intervals; for every segment
those intervals concatenated reconstruct exactly the segment's `[start,end]`;
and every punctuation sub-span receives the fraction of the segment's
duration given by its character share. -/
theorem C2_interval_round_trip (segs : List Segment) (opts : FormatOptions)
    (hadj : opts.adjust_timing = false) (hwl : opts.word_level = false)
    (hwf : ∀ g ∈ segs, g.start ≤ g.stop) :
    (formatSubtitles segs opts).map entryInterval =
        (segs.map (fun g => (segmentEntries opts g).map entryInterval)).flatten ∧
      (∀ g ∈ segs,
        coversExactly g.start ((segmentEntries opts g).map entryInterval)
          g.stop = true) ∧
      (∀ g ∈ segs,
        ∀ p ∈ distribute List.length g.start g.stop (splitPunct g.text),
          p.2.2 - p.2.1 = (g.stop - g.start) * ((p.1.length : Nat) : ℚ) /
            ((totalBy List.length (splitPunct g.text) : Nat) : ℚ)) := by
  refine ⟨?_, ?_, ?_⟩
  · rw [formatSubtitles_eq_of_wf segs opts hadj hwf, reindexFrom_map_interval,
      List.map_flatten, List.map_map]
    rfl
  · intro g _
    exact segmentEntries_covers opts g hwl
  · intro g _ p hp
    exact distributeAux_width List.length g.start (g.stop - g.start)
      (totalBy List.length (splitPunct g.text)) (splitPunct g.text) 0 p hp

/-- Witness for C2 on the spec's concrete scenario segment. -/
theorem C2_interval_round_trip_witness :
    ((⟨18, 1, false, true, false⟩ : FormatOptions).adjust_timing = false ∧
        (⟨18, 1, false, true, false⟩ : FormatOptions).word_level = false ∧
        (∀ g ∈ [(⟨0, 4, "Hello world. This is a test.".toList, []⟩ :
            Segment)], g.start ≤ g.stop)) ∧
      (∀ g ∈ [(⟨0, 4, "Hello world. This is a test.".toList, []⟩ :
          Segment)],
        coversExactly g.start
          ((segmentEntries ⟨18, 1, false, true, false⟩ g).map entryInterval)
          g.stop = true) :=
  ⟨⟨rfl, rfl, by
      intro g hg
      simp only [List.mem_singleton] at hg
      subst hg
      norm_num⟩,
    (C2_interval_round_trip
      [⟨0, 4, "Hello world. This is a test.".toList, []⟩]
      ⟨18, 1, false, true, false⟩ rfl rfl (by
        intro g hg
        simp only [List.mem_singleton] at hg
        subst hg
        norm_num)).2.1⟩

/-- Claim C2 counterexample to the claim as stated:  With `word_level = true`
(and `adjust_timing = false`) the produced entries carry the words' own
timestamps, so their concatenated intervals need not reconstruct the segment
span; and a list containing one malformed segment yields no entries at all,
so even its well-formed segment's span is not reconstructed. -/
theorem C2_interval_round_trip_counterexample :
    ((⟨18, 1, true, false, false⟩ : FormatOptions).adjust_timing = false ∧
        (formatSubtitles [⟨0, 4, ['h', 'i'], [⟨['h', 'i'], 1, 2⟩]⟩]
            ⟨18, 1, true, false, false⟩).map entryInterval = [((1 : ℚ), 2)] ∧
        coversExactly (0 : ℚ) [((1 : ℚ), 2)] 4 = false) ∧
      ((⟨18, 1, false, false, false⟩ : FormatOptions).adjust_timing = false ∧
        (0 : ℚ) ≤ 4 ∧
        formatSubtitles [⟨0, 4, ['h', 'i'], []⟩, ⟨5, 3, ['y', 'o'], []⟩]
          ⟨18, 1, false, false, false⟩ = [] ∧
        coversExactly (0 : ℚ) ([] : List (ℚ × ℚ)) 4 = false) := by
  refine ⟨⟨rfl, ?_, by decide⟩, rfl, by decide, ?_, by decide⟩
  · decide
  · decide

/-- Claim C3: With `max_line_width ∈ [10,100]` and `max_line_count ∈ [1,3]`,
for well-formed segments (word texts contain no space), every entry the
formatter produces has at most `max_line_count` lines and every line either
fits in `max_line_width` characters or is a single unsplittable word. -/
theorem C3_line_limits (segs : List Segment) (opts : FormatOptions)
    (hw₁ : 10 ≤ opts.max_line_width) (hw₂ : opts.max_line_width ≤ 100)
    (hc₁ : 1 ≤ opts.max_line_count) (hc₂ : opts.max_line_count ≤ 3)
    (hwords : ∀ g ∈ segs, ∀ w ∈ g.words, ' ' ∉ w.text) :
    ∀ e ∈ formatSubtitles segs opts,
      e.lines.length ≤ opts.max_line_count ∧
        ∀ l ∈ e.lines, l.length ≤ opts.max_line_width ∨ ' ' ∉ l := by
  intro e he
  unfold formatSubtitles at he
  split at he
  · simp at he
  · have he' : ∃ e' ∈ (segs.map (segmentEntries opts)).flatten,
        e'.lines = e.lines := by
      by_cases hat : opts.adjust_timing
      · rw [if_pos hat] at he
        obtain ⟨e₁, hm₁, hl₁⟩ := mem_reindexFrom_lines he
        obtain ⟨e₂, hm₂, hl₂⟩ := mem_adjustEntries_lines hm₁
        exact ⟨e₂, hm₂, hl₂.trans hl₁⟩
      · rw [if_neg hat] at he
        exact mem_reindexFrom_lines he
    obtain ⟨e', hmf, hlines⟩ := he'
    rw [← hlines]
    simp only [List.mem_flatten, List.mem_map] at hmf
    obtain ⟨_, ⟨g, hg, rfl⟩, hmem⟩ := hmf
    unfold segmentEntries at hmem
    by_cases hwl : opts.word_level
    · rw [if_pos hwl] at hmem
      simp only [List.mem_map] at hmem
      obtain ⟨w, hw, rfl⟩ := hmem
      refine ⟨by simpa using hc₁, ?_⟩
      intro l hl
      simp only [List.mem_singleton] at hl
      subst hl
      exact Or.inr (hwords g hg w hw)
    · rw [if_neg hwl] at hmem
      simp only [List.mem_flatten, List.mem_map] at hmem
      obtain ⟨_, ⟨sp, _, rfl⟩, hsp⟩ := hmem
      unfold spanEntries at hsp
      rcases hch : chunkLines opts.max_line_count
          (greedyWrap opts.max_line_width sp.text) with _ | ⟨ch, chs⟩
      · rw [hch] at hsp
        simp only [List.mem_singleton] at hsp
        subst hsp
        simp
      · rw [hch] at hsp
        simp only [List.mem_map] at hsp
        obtain ⟨p, hp, rfl⟩ := hsp
        have hfst : p.1 ∈ ch :: chs :=
          distributeAux_fst_mem chunkLen sp.start (sp.stop - sp.start)
            (totalBy chunkLen (ch :: chs)) (ch :: chs) 0 p hp
        have hcm := chunkLines_mem opts.max_line_count
          (greedyWrap opts.max_line_width sp.text)
        rw [hch] at hcm
        obtain ⟨_, hlen, hsub⟩ := hcm p.1 hfst
        refine ⟨by simpa using by omega, ?_⟩
        intro l hl
        have := greedyWrap_mem opts.max_line_width sp.text l (hsub l hl)
        exact this.2

/-- Witness for C3 at a concrete segment and options. -/
theorem C3_line_limits_witness :
    (10 ≤ 18 ∧ 18 ≤ 100 ∧ 1 ≤ 1 ∧ 1 ≤ 3 ∧
        (∀ g ∈ [(⟨0, 4, ['h', 'i', ' ', 'y', 'o'], []⟩ : Segment)],
          ∀ w ∈ g.words, ' ' ∉ w.text)) ∧
      (∀ e ∈ formatSubtitles [(⟨0, 4, ['h', 'i', ' ', 'y', 'o'], []⟩ :
          Segment)] ⟨18, 1, false, true, false⟩,
        e.lines.length ≤ (⟨18, 1, false, true, false⟩ :
            FormatOptions).max_line_count ∧
          ∀ l ∈ e.lines,
            l.length ≤ (⟨18, 1, false, true, false⟩ :
              FormatOptions).max_line_width ∨ ' ' ∉ l) :=
  ⟨⟨by omega, by omega, by omega, by omega, by simp⟩,
    C3_line_limits [⟨0, 4, ['h', 'i', ' ', 'y', 'o'], []⟩]
      ⟨18, 1, false, true, false⟩ (by decide) (by decide) (by decide)
      (by decide) (by simp)⟩

/-- Claim C8: The formatter is a total function that never raises: malformed
input — an empty segment list, or any segment with `end < start` — yields an
empty entry sequence. -/
theorem C8_malformed_yields_empty (segs : List Segment) (opts : FormatOptions)
    (h : segs = [] ∨ ∃ g ∈ segs, g.stop < g.start) :
    formatSubtitles segs opts = [] := by
  unfold formatSubtitles
  rcases h with rfl | ⟨g, hg, hlt⟩
  · simp
  · have hany : segs.any (fun g => decide (g.stop < g.start)) = true := by
      rw [List.any_eq_true]
      exact ⟨g, hg, by simpa using hlt⟩
    simp [hany]

/-- Witness for C8 at a concrete malformed segment. -/
theorem C8_malformed_yields_empty_witness :
    (([(⟨4, 0, ['h', 'i'], []⟩ : Segment)] : List Segment) = [] ∨
        ∃ g ∈ [(⟨4, 0, ['h', 'i'], []⟩ : Segment)], g.stop < g.start) ∧
      formatSubtitles [(⟨4, 0, ['h', 'i'], []⟩ : Segment)]
        ⟨18, 1, false, true, false⟩ = [] :=
  ⟨Or.inr ⟨⟨4, 0, ['h', 'i'], []⟩, by simp, by norm_num⟩,
    C8_malformed_yields_empty [⟨4, 0, ['h', 'i'], []⟩]
      ⟨18, 1, false, true, false⟩
      (Or.inr ⟨⟨4, 0, ['h', 'i'], []⟩, by simp, by norm_num⟩)⟩

end Stt
